import Mathlib

namespace FlexiconSite

/-! ## `assets/js/main.js`: `shuffle` -/

/-- A value returned by `Math.random()`: a double in `[0, 1)`. Every such double is
`mant * 2 ^ (-expo)` with a significand `mant` below `2 ^ 53` and `expo` at most 1074. -/
structure RandomValue where
  mant : Nat
  expo : Nat
  lt_one : mant < 2 ^ expo
  mant_lt : mant < 2 ^ 53
  expo_le : expo ≤ 1074

/-- The random source: `rand k` is the value of the `k`-th call to `Math.random()`. -/
abbrev RandomSource := Nat → RandomValue

/-- The double `0`. -/
def zero : RandomValue :=
  { mant := 0, expo := 0, lt_one := by decide, mant_lt := by decide, expo_le := by decide }

/-- The double `0.3333333333333333`, the nearest below one third:
`6004799503160661 / 2 ^ 54`. -/
def third : RandomValue :=
  { mant := 6004799503160661, expo := 54, lt_one := by decide, mant_lt := by decide,
    expo_le := by decide }

/-- The random source whose every value is `r`. -/
def always (r : RandomValue) : RandomSource := fun _ => r

/-- The number of bits `p` has beyond 53: the number of halvings that bring `p` below
`2 ^ 53`, counted with at most `fuel` halvings (`fuel = p` is always enough). -/
def excessBits : Nat → Nat → Nat
  | 0, _ => 0
  | fuel + 1, p => if p < 2 ^ 53 then 0 else excessBits fuel (p / 2) + 1

/-- Rounding to a double, on integers: `p` is rounded to 53 significant bits, to the
nearest such value and to the one with even significand when two are equally near. -/
def roundToDouble (p : Nat) : Nat :=
  if p < 2 ^ 53 then p
  else
    let shift := excessBits p p
    let q := p / 2 ^ shift
    let rest := p % 2 ^ shift
    let half := 2 ^ (shift - 1)
    if rest < half then q * 2 ^ shift
    else if rest = half ∧ q % 2 = 0 then q * 2 ^ shift
    else (q + 1) * 2 ^ shift

/-- The index `Math.floor(r * currentIndex)` in double arithmetic. `currentIndex` is
an integer below `2 ^ 32`, held exactly; the exact product is
`(mant * currentIndex) * 2 ^ (-expo)`, the multiplication rounds it to a double
(scaling by a power of two commutes with the rounding), and `Math.floor` takes the
integer part. -/
def randomIndexOf (r : RandomValue) (currentIndex : Nat) : Nat :=
  roundToDouble (r.mant * currentIndex) / 2 ^ r.expo

/-- The draws of a run: `draw k currentIndex` is the index
`Math.floor(Math.random() * currentIndex)` computed with the `k`-th random value. -/
abbrev Draws := Nat → Nat → Nat

/-- The draws made from the values of `Math.random()`. -/
def mathRandom (rand : RandomSource) : Draws :=
  fun k currentIndex => randomIndexOf (rand k) currentIndex

/-- The draws that give the indices of the list `ds`, one after the other. -/
def listDraws (ds : List Nat) : Draws :=
  fun k _ => ds.getD k 0

/-- The read `array[i]`: the element at `i`, or `undefined` past the end. -/
def jsGet {α : Type} (undefined : α) (array : List α) (i : Nat) : α :=
  array.getD i undefined

/-- The write `array[i] = v`: replaces the element at `i`; past the end the array
grows to length `i + 1`, the new positions in between reading as `undefined`. -/
def jsSet {α : Type} (undefined : α) (array : List α) (i : Nat) (v : α) : List α :=
  if i < array.length then array.set i v
  else array ++ List.replicate (i - array.length) undefined ++ [v]

/-- The variables of `shuffle` while its loop runs: the contents of the array
object that the parameter `array` refers to, `currentIndex`, and the number of
calls made to `Math.random()` so far. -/
structure ShuffleState (α : Type) where
  array : List α
  currentIndex : Nat
  calls : Nat

/-- One pass through the body of the `while` loop. -/
def loopBody {α : Type} (undefined : α) (draw : Draws) (s : ShuffleState α) :
    ShuffleState α :=
  let randomIndex := draw s.calls s.currentIndex
  let currentIndex := s.currentIndex - 1
  let temporaryValue := jsGet undefined s.array currentIndex
  let array := jsSet undefined s.array currentIndex (jsGet undefined s.array randomIndex)
  let array := jsSet undefined array randomIndex temporaryValue
  { array := array, currentIndex := currentIndex, calls := s.calls + 1 }

/-- The loop `while (0 !== currentIndex) { ... }`, by recursion on `currentIndex`,
which every pass lowers by one. -/
def shuffleLoop {α : Type} (undefined : α) (draw : Draws) :
    Nat → Nat → List α → ShuffleState α
  | 0, calls, array => { array := array, currentIndex := 0, calls := calls }
  | currentIndex + 1, calls, array =>
    let s := loopBody undefined draw
      { array := array, currentIndex := currentIndex + 1, calls := calls }
    shuffleLoop undefined draw currentIndex s.calls s.array

/-- What a call `shuffle(array)` leaves behind. The parameter is a reference to the
array object of the caller: the loop writes into that object and `return array` hands
the same reference back, so the returned array and the argument after the call are
one object. `calls` counts the calls made to `Math.random()`. -/
structure ShuffleResult (α : Type) where
  returned : List α
  argument : List α
  calls : Nat

/-- The function `shuffle(array)`, run against the draws `draw`. -/
def shuffle {α : Type} (undefined : α) (draw : Draws) (array : List α) :
    ShuffleResult α :=
  let s := shuffleLoop undefined draw array.length 0 array
  { returned := s.array, argument := s.array, calls := s.calls }

/-- The indices drawn by the loop started at `currentIndex` after `calls` draws,
in the order drawn. -/
def drawnIndices (draw : Draws) : Nat → Nat → List Nat
  | 0, _ => []
  | currentIndex + 1, calls =>
    draw calls (currentIndex + 1) :: drawnIndices draw currentIndex (calls + 1)

/-- A sequence of draws for an array of length `n`: one index per pass, the draw
made at `currentIndex` lying in `[0, currentIndex - 1]`. -/
def validDraws : Nat → List Nat → Bool
  | 0, [] => true
  | n + 1, d :: ds => decide (d < n + 1) && validDraws n ds
  | _, _ => false

/-- All sequences of draws for an array of length `n`, the first draw ranging over
`[0, n - 1]`, the next over `[0, n - 2]`, and so on. -/
def allDraws : Nat → List (List Nat)
  | 0 => [[]]
  | n + 1 => (List.range (n + 1)).flatMap (fun d => (allDraws n).map (fun ds => d :: ds))

/-! ## `assets/js/main.js`: the `load` handler -/

/-- A JavaScript string, as its sequence of UTF-16 code units; `s.length` is the
length of the sequence. -/
abbrev JSString := List Nat

/-- The code unit of the separator `','`. -/
def comma : Nat := 44

/-- The built-in `s.split(',')`: the substrings of `s` between the occurrences of the
separator, in order; a string without separator (the empty string too) gives one
substring. -/
def split : JSString → List JSString
  | [] => [[]]
  | c :: cs =>
    if c = comma then [] :: split cs
    else
      match split cs with
      | [] => [[c]]
      | head :: tail => (c :: head) :: tail

/-- The values an element of the snippet array can be. -/
inductive JSValue where
  | undefined
  | string (s : JSString)
  deriving DecidableEq

/-- The calls made to the TypeIt library: the constructor with its selector and
options `speed`, `cursor`, `loop`; `type(text, { delay })`; `delete(count, { delay })`;
`go()`. -/
inductive TypeItCall where
  | construct (selector : String) (speed : Nat) (cursor : Bool) (loop : Bool)
  | type (text : JSValue) (delay : Nat)
  | delete (count : Nat) (delay : Nat)
  | go
  deriving DecidableEq

/-- An element of the document: its `id`, its `innerHTML` and its `data-values`
attribute (`dataset['values']`, absent when the attribute is). -/
structure Element where
  id : String
  innerHTML : JSString
  values : Option JSString
  deriving DecidableEq

/-- The page as the handler sees and changes it: the elements of the document, in
document order, and the calls received by TypeIt so far, oldest first. -/
structure Page where
  elements : List Element
  typewriter : List TypeItCall
  deriving DecidableEq

/-- The lookup `document.getElementById(id)`: the first element with that id, or
`null` (here `none`) when there is none. -/
def getElementById (elements : List Element) (id : String) : Option Element :=
  elements.find? (fun e => decide (e.id = id))

/-- The document after `innerHTML = html` on the element that `getElementById(id)`
finds. -/
def setInnerHTML : List Element → String → JSString → List Element
  | [], _, _ => []
  | e :: rest, id, html =>
    if e.id = id then { e with innerHTML := html } :: rest
    else e :: setInnerHTML rest id html

/-- How a piece of the handler ends: normally, or by throwing a `TypeError`. -/
inductive Completion where
  | normal
  | typeError
  deriving DecidableEq

/-- The callback `(s) => { typewriter.type(s, { delay: 3000 }).delete(s.length, { delay: 200 }); }`.
The call to `type` is made first; reading `s.length` throws when `s` is `undefined`. -/
def typeAndDelete (s : JSValue) (typewriter : List TypeItCall) :
    Completion × List TypeItCall :=
  let typewriter := typewriter ++ [TypeItCall.type s 3000]
  match s with
  | JSValue.undefined => (Completion.typeError, typewriter)
  | JSValue.string str =>
    (Completion.normal, typewriter ++ [TypeItCall.delete str.length 200])

/-- The loop `snippets.forEach(...)`. -/
def forEach : List JSValue → List TypeItCall → Completion × List TypeItCall
  | [], typewriter => (Completion.normal, typewriter)
  | s :: rest, typewriter =>
    match typeAndDelete s typewriter with
    | (Completion.normal, typewriter) => forEach rest typewriter
    | (Completion.typeError, typewriter) => (Completion.typeError, typewriter)

/-- The handler registered for the `load` event. Assigning to `logoEl.innerHTML` throws
when `logoEl` is `null`, and so does `logoEl.dataset['values'].split` when the
attribute is absent. -/
def loadHandler (rand : RandomSource) (page : Page) : Completion × Page :=
  match getElementById page.elements "logo-text" with
  | none => (Completion.typeError, page)
  | some logoEl =>
    let elements := setInnerHTML page.elements "logo-text" []
    let typewriter := page.typewriter ++ [TypeItCall.construct "#logo-text" 75 false true]
    match logoEl.values with
    | none => (Completion.typeError, { elements := elements, typewriter := typewriter })
    | some values =>
      let snippets :=
        (shuffle JSValue.undefined (mathRandom rand)
          ((split values).map JSValue.string)).returned
      match forEach snippets typewriter with
      | (Completion.typeError, typewriter) =>
        (Completion.typeError, { elements := elements, typewriter := typewriter })
      | (Completion.normal, typewriter) =>
        (Completion.normal,
          { elements := elements, typewriter := typewriter ++ [TypeItCall.go] })

/-- The code units of a Lean string whose characters lie in the Basic Multilingual
Plane, where a character is one code unit. -/
def codeUnits (s : String) : JSString := s.toList.map Char.toNat

/-! ## `scripts/og-image-generator/index.js` -/

/-- An absolute path: the names of its segments below the root, in order. -/
abbrev Path := List String

/-- One segment of `path.join`, applied to the normalised path built so far: `..`
drops the last segment (at the root it stays at the root), `.` and the empty segment
change nothing, any other name is appended. -/
def joinSegment (acc : Path) (segment : String) : Path :=
  if segment = ".." then acc.dropLast
  else if segment = "." ∨ segment = "" then acc
  else acc ++ [segment]

/-- The built-in `path.join(base, ...segments)` for an absolute `base`: the segments
are put one after the other and the result is normalised. -/
def join (base : Path) (segments : List String) : Path :=
  (base ++ segments).foldl joinSegment []

/-- The calls the script makes to Puppeteer, the file system and the process. -/
inductive Call where
  | launch
  | newPage
  | setViewport (width height deviceScaleFactor : Nat)
  | setContent
  | existsSync (path : Path)
  | mkdirSync (path : Path)
  | screenshot (path : Path)
  | statSync (path : Path)
  | consoleError
  | close
  | exit (code : Nat)
  deriving DecidableEq

/-- The surroundings of one run: the working directory `process.cwd()`, whether the
output directory exists, and for each call that can fail whether it fails (throws or
rejects) when it is made. -/
structure Env where
  cwd : Path
  dirExists : Bool
  launchFails : Bool
  newPageFails : Bool
  setViewportFails : Bool
  setContentFails : Bool
  mkdirFails : Bool
  screenshotFails : Bool
  statFails : Bool
  closeFails : Bool

/-- How a piece of the script ends: with a value, by throwing (a rejected promise for
an async function), or because `process.exit(code)` ended the process. -/
inductive Outcome (α : Type) where
  | value (a : α)
  | thrown
  | exited (code : Nat)

/-- A piece of the script: from the calls made so far to how it ends and the calls
made by then. -/
def Proc (α : Type) : Type := List Call → Outcome α × List Call

/-- Sequencing: what follows runs only after a piece that ended with a value; a throw
passes on to the enclosing handler and an ended process runs nothing more. -/
instance : Monad Proc where
  pure a := fun trace => (Outcome.value a, trace)
  bind x f := fun trace =>
    match x trace with
    | (Outcome.value a, trace) => f a trace
    | (Outcome.thrown, trace) => (Outcome.thrown, trace)
    | (Outcome.exited code, trace) => (Outcome.exited code, trace)

/-- A call that is made and then returns, or throws when `fails`. -/
def call (c : Call) (fails : Bool) : Proc Unit := fun trace =>
  (if fails then Outcome.thrown else Outcome.value (), trace ++ [c])

/-- The call `process.exit(code)`: the process ends at once and no later code runs. -/
def processExit (code : Nat) : Proc Unit := fun trace =>
  (Outcome.exited code, trace ++ [Call.exit code])

/-- The statement `try { body } catch (error) { handler } finally { cleanup }`: the handler
runs when the body throws; the cleanup runs after the body or the handler, unless
the process has ended; a cleanup that ends normally leaves the earlier outcome. -/
def tryCatchFinally (body handler cleanup : Proc Unit) : Proc Unit := fun trace =>
  let afterCatch :=
    match body trace with
    | (Outcome.thrown, trace) => handler trace
    | r => r
  match afterCatch with
  | (Outcome.exited code, trace) => (Outcome.exited code, trace)
  | (outcome, trace) =>
    match cleanup trace with
    | (Outcome.value (), trace) => (outcome, trace)
    | r => r

/-- The function `generateOGImage()`; console output other than errors is left out. -/
def generateOGImage (env : Env) : Proc Unit := do
  call Call.launch env.launchFails
  tryCatchFinally
    (do
      call Call.newPage env.newPageFails
      call (Call.setViewport 1200 630 2) env.setViewportFails
      call Call.setContent env.setContentFails
      let outputDir := join env.cwd ["..", "..", "static"]
      call (Call.existsSync outputDir) false
      if !env.dirExists then
        call (Call.mkdirSync outputDir) env.mkdirFails
      let outputPath := join outputDir ["og-image.png"]
      call (Call.screenshot outputPath) env.screenshotFails
      call (Call.statSync outputPath) env.statFails)
    (do
      call Call.consoleError false
      processExit 1)
    (call Call.close env.closeFails)

/-- The script: `generateOGImage().catch((error) => { console.error(...); process.exit(1); })`. -/
def main (env : Env) : Proc Unit := fun trace =>
  match generateOGImage env trace with
  | (Outcome.thrown, trace) =>
    (do
      call Call.consoleError false
      processExit 1 : Proc Unit) trace
  | r => r

/-- The result of a run of the script: the calls made and the exit status of the
process, which is the code given to `process.exit` or 0 when the script runs to
its end. -/
structure Run where
  calls : List Call
  exitCode : Nat

/-- One run of the script in the surroundings `env`. -/
def run (env : Env) : Run :=
  match main env [] with
  | (Outcome.exited code, trace) => { calls := trace, exitCode := code }
  | (Outcome.value (), trace) => { calls := trace, exitCode := 0 }
  | (Outcome.thrown, trace) => { calls := trace, exitCode := 1 }

/-- The path the specification gives for the image: `static/og-image.png` under the
directory two levels above the directory of the script. -/
def specOutputPath (scriptDir : Path) : Path :=
  join scriptDir ["..", "..", "static", "og-image.png"]

/-- The paths of the screenshots taken in a run. -/
def screenshotPaths (calls : List Call) : List Path :=
  calls.filterMap (fun c => match c with
    | Call.screenshot path => some path
    | _ => none)

/-- A normalised path, as `process.cwd()` returns it: no segment is `..`, `.` or empty. -/
def Normalised (p : Path) : Prop :=
  ∀ segment ∈ p, segment ≠ ".." ∧ segment ≠ "." ∧ segment ≠ ""

/-- The surroundings in which no call fails. -/
def allSucceed (cwd : Path) (dirExists : Bool) : Env :=
  { cwd := cwd, dirExists := dirExists, launchFails := false, newPageFails := false,
    setViewportFails := false, setContentFails := false, mkdirFails := false,
    screenshotFails := false, statFails := false, closeFails := false }

/-! ### Lemmas on the exchange made by one pass -/

/-- The bits counted by `excessBits` are there: `p` is at least `2 ^ (52 + shift)`. -/
theorem excessBits_le (fuel p : Nat) (h : 2 ^ 53 ≤ p) (hf : 0 < fuel) :
    1 ≤ excessBits fuel p ∧ 2 ^ 53 * 2 ^ (excessBits fuel p - 1) ≤ p := by
  induction fuel generalizing p with
  | zero => exact absurd hf (Nat.lt_irrefl 0)
  | succ fuel ih =>
    rw [excessBits, if_neg (by omega)]
    refine ⟨by omega, ?_⟩
    rw [Nat.add_sub_cancel]
    by_cases h2 : 2 ^ 53 ≤ p / 2
    · by_cases hf2 : 0 < fuel
      · obtain ⟨h3, h4⟩ := ih (p / 2) h2 hf2
        have hpow : 2 ^ excessBits fuel (p / 2)
            = 2 * 2 ^ (excessBits fuel (p / 2) - 1) := by
          rw [← Nat.pow_succ']
          congr 1
          omega
        rw [hpow]
        have := Nat.div_mul_le_self p 2
        nlinarith
      · have hf0 : fuel = 0 := by omega
        subst hf0
        simpa [excessBits] using h
    · have h3 : p / 2 < 2 ^ 53 := Nat.lt_of_not_le h2
      cases fuel with
      | zero => simpa [excessBits] using h
      | succ fuel =>
        rw [excessBits, if_pos h3]
        simpa using h

/-- With `fuel = p` the count is complete: what is left of `p` is below `2 ^ 53`. -/
theorem excessBits_lt (fuel p : Nat) (hf : p < 2 ^ 53 * 2 ^ fuel) :
    p / 2 ^ excessBits fuel p < 2 ^ 53 := by
  induction fuel generalizing p with
  | zero => simpa [excessBits] using hf
  | succ fuel ih =>
    rw [excessBits]
    split_ifs with h
    · simpa using h
    · rw [Nat.pow_succ', ← Nat.div_div_eq_div_mul]
      apply ih
      rw [Nat.div_lt_iff_lt_mul (by decide)]
      have e : 2 ^ (fuel + 1) = 2 ^ fuel * 2 := pow_succ 2 fuel
      rw [e] at hf
      generalize 2 ^ fuel = x at hf ⊢
      omega

/-- The significand kept by `roundToDouble` has 53 bits. -/
theorem roundToDouble_significand (p : Nat) (h : 2 ^ 53 ≤ p) :
    2 ^ 52 ≤ p / 2 ^ excessBits p p ∧ p / 2 ^ excessBits p p < 2 ^ 53 := by
  have hp : 0 < p := Nat.lt_of_lt_of_le (by decide) h
  obtain ⟨h1, h2⟩ := excessBits_le p p h hp
  refine ⟨?_, excessBits_lt p p ?_⟩
  · rw [Nat.le_div_iff_mul_le (Nat.pos_pow_of_pos _ (by decide))]
    have hpow : 2 ^ excessBits p p = 2 * 2 ^ (excessBits p p - 1) := by
      rw [← Nat.pow_succ']
      congr 1
      omega
    rw [hpow]
    nlinarith
  · have := Nat.lt_two_pow p
    have h53 : 0 < 2 ^ 53 := by decide
    nlinarith

/-- The value `roundToDouble` gives is a multiple of the unit `2 ^ shift` of the
53-bit significands near `p`. -/
theorem roundToDouble_dvd (p : Nat) (h : 2 ^ 53 ≤ p) :
    2 ^ excessBits p p ∣ roundToDouble p := by
  unfold roundToDouble
  rw [if_neg (by omega)]
  simp only []
  split_ifs
  · exact Dvd.intro_left _ rfl
  · exact Dvd.intro_left _ rfl
  · exact Dvd.intro_left _ rfl

/-- The value `roundToDouble` gives is within half a unit of `p`, on either side. -/
theorem roundToDouble_near (p : Nat) (h : 2 ^ 53 ≤ p) :
    roundToDouble p ≤ p + 2 ^ (excessBits p p - 1)
      ∧ p ≤ roundToDouble p + 2 ^ (excessBits p p - 1) := by
  have hp : 0 < p := Nat.lt_of_lt_of_le (by decide) h
  obtain ⟨h1, _⟩ := excessBits_le p p h hp
  have hdm := Nat.div_add_mod p (2 ^ excessBits p p)
  have hpow : 2 ^ excessBits p p = 2 * 2 ^ (excessBits p p - 1) := by
    rw [← Nat.pow_succ']
    congr 1
    omega
  have hmod : p % 2 ^ excessBits p p < 2 ^ excessBits p p :=
    Nat.mod_lt _ (Nat.pos_pow_of_pos _ (by decide))
  unfold roundToDouble
  rw [if_neg (by omega)]
  simp only []
  generalize p / 2 ^ excessBits p p = q at hdm ⊢
  generalize p % 2 ^ excessBits p p = rest at hdm hmod ⊢
  rw [hpow] at hdm hmod ⊢
  generalize 2 ^ (excessBits p p - 1) = half at hdm hmod ⊢
  split_ifs with h1 h2
  · constructor <;> nlinarith
  · constructor <;> nlinarith
  · constructor <;> nlinarith

theorem roundToDouble_le (p : Nat) (h : 2 ^ 53 ≤ p) :
    roundToDouble p ≤ p + 2 ^ (excessBits p p - 1) :=
  (roundToDouble_near p h).1

/-- Two products as double arithmetic gives them: `0.1 * 3` is `0.30000000000000004`
(`5404319552844596 / 2 ^ 54`, the exact product lying half-way between two doubles),
and `0.3333333333333333 * 3` is `1`. -/
theorem roundToDouble_products :
    roundToDouble (3602879701896397 * 3) = 5404319552844596 * 2
      ∧ roundToDouble (6004799503160661 * 3) = 2 ^ 54 := by
  decide

/-- The rounded product stays below `currentIndex`: the index drawn is in range. -/
theorem randomIndexOf_lt (r : RandomValue) {currentIndex : Nat} (h : 0 < currentIndex) :
    randomIndexOf r currentIndex < currentIndex := by
  unfold randomIndexOf
  rw [Nat.div_lt_iff_lt_mul (Nat.pos_pow_of_pos _ (by decide))]
  have h1 := r.lt_one
  have h2 := r.mant_lt
  by_cases hp : r.mant * currentIndex < 2 ^ 53
  · rw [roundToDouble, if_pos hp]
    nlinarith
  · have hp' : 2 ^ 53 ≤ r.mant * currentIndex := Nat.le_of_not_lt hp
    have hpos : 0 < r.mant * currentIndex := Nat.lt_of_lt_of_le (by decide) hp'
    have hle := roundToDouble_le _ hp'
    obtain ⟨_, hself⟩ := excessBits_le _ _ hp' hpos
    generalize 2 ^ (excessBits (r.mant * currentIndex) (r.mant * currentIndex) - 1) = half
      at hle hself
    generalize roundToDouble (r.mant * currentIndex) = rounded at hle
    -- `half < currentIndex`, as `2 ^ 53 * half ≤ mant * currentIndex < 2 ^ 53 * currentIndex`
    have hhalf : half < currentIndex := by
      by_contra hc
      have hc' : currentIndex ≤ half := Nat.le_of_not_lt hc
      nlinarith
    nlinarith

theorem jsSet_of_lt {α : Type} (u : α) (a : List α) {i : Nat} (v : α) (h : i < a.length) :
    jsSet u a i v = a.set i v := by
  simp [jsSet, h]

/-- The array after one pass that exchanges positions `i` and `j`, both in range. -/
theorem exchange_eq {α : Type} (u : α) (a : List α) {i j : Nat} (hi : i < a.length)
    (hj : j < a.length) :
    jsSet u (jsSet u a i (jsGet u a j)) j (jsGet u a i)
      = (a.set i (a.getD j u)).set j (a.getD i u) := by
  rw [jsSet_of_lt u a _ hi, jsSet_of_lt u _ _ (by simpa using hj)]
  rfl

theorem exchange_length {α : Type} (u : α) (a : List α) (i j : Nat) :
    ((a.set i (a.getD j u)).set j (a.getD i u)).length = a.length := by
  simp

theorem exchange_getElem? {α : Type} (u : α) (a : List α) {i j : Nat} (hi : i < a.length)
    (hj : j < a.length) (k : Nat) :
    ((a.set i (a.getD j u)).set j (a.getD i u))[k]?
      = if k = j then a[i]? else if k = i then a[j]? else a[k]? := by
  have e1 : a.getD i u = a[i] := by simp [List.getD, hi]
  have e2 : a.getD j u = a[j] := by simp [List.getD, hj]
  rw [e1, e2]
  simp only [List.getElem?_set, List.length_set]
  by_cases h1 : k = j
  · subst h1
    simp [hj, hi]
  · by_cases h2 : k = i
    · subst h2
      simp [hi, hj, h1, Ne.symm h1]
    · simp [h1, h2, Ne.symm h1, Ne.symm h2]

theorem exchange_perm {α : Type} (u : α) (a : List α) {i j : Nat} (hi : i < a.length)
    (hj : j < a.length) :
    ((a.set i (a.getD j u)).set j (a.getD i u)).Perm a := by
  classical
  by_cases hij : i = j
  · subst hij
    have : (a.set i (a.getD i u)).set i (a.getD i u) = a := by
      apply List.ext_getElem?
      intro k
      rw [exchange_getElem? u a hi hi k]
      by_cases hk : k = i
      · simp [hk]
      · simp [hk]
    rw [this]
  · have e1 : a.getD i u = a[i] := by simp [List.getD, hi]
    have e2 : a.getD j u = a[j] := by simp [List.getD, hj]
    rw [e1, e2]
    rw [List.perm_iff_count]
    intro x
    rw [List.count_set _ _ _ _ (by simpa using hj), List.count_set _ _ _ _ hi]
    have hjs : j < (a.set i a[j]).length := by simpa using hj
    have hget : (a.set i a[j])[j] = a[j] := by
      simp [List.getElem_set, hij]
    rw [hget]
    have hpos : (a[i] == x) = true → 0 < a.count x := by
      intro h
      have : a[i] = x := by simpa using h
      exact List.count_pos_iff.2 (this ▸ List.getElem_mem hi)
    by_cases c1 : (a[i] == x) = true <;> by_cases c2 : (a[j] == x) = true
    · have := hpos c1
      simp only [c1, c2, if_true]
      omega
    · have := hpos c1
      simp only [c1, c2, if_true]
      simp
      omega
    · simp only [c1, c2, if_true]
      simp
    · simp only [c1, c2]
      simp

theorem exchange_drop {α : Type} (u : α) (a : List α) {i j : Nat} (hi : i < a.length)
    (hj : j ≤ i) :
    ((a.set i (a.getD j u)).set j (a.getD i u)).drop (i + 1) = a.drop (i + 1) := by
  apply List.ext_getElem?
  intro k
  rw [List.getElem?_drop, List.getElem?_drop, exchange_getElem? u a hi (by omega),
    if_neg (by omega), if_neg (by omega)]

theorem exchange_take_perm {α : Type} (u : α) (a : List α) {i j : Nat} (hi : i < a.length)
    (hj : j ≤ i) :
    (((a.set i (a.getD j u)).set j (a.getD i u)).take (i + 1)).Perm (a.take (i + 1)) := by
  have e : ((a.set i (a.getD j u)).set j (a.getD i u)).take (i + 1) ++ a.drop (i + 1)
      = (a.set i (a.getD j u)).set j (a.getD i u) := by
    rw [← exchange_drop u a hi hj]
    exact List.take_append_drop _ _
  have hp : (((a.set i (a.getD j u)).set j (a.getD i u)).take (i + 1) ++ a.drop (i + 1)).Perm
      (a.take (i + 1) ++ a.drop (i + 1)) := by
    rw [e, List.take_append_drop]
    exact exchange_perm u a hi (by omega)
  exact (List.perm_append_right_iff _).1 hp


/-! ### Lemmas on the loop -/

theorem mathRandom_lt (rand : RandomSource) (k : Nat) {currentIndex : Nat}
    (h : 0 < currentIndex) : mathRandom rand k currentIndex < currentIndex :=
  randomIndexOf_lt (rand k) h

theorem validDraws_succ {draw : Draws} {n c : Nat}
    (hv : validDraws (n + 1) (drawnIndices draw (n + 1) c) = true) :
    draw c (n + 1) < n + 1 ∧ validDraws n (drawnIndices draw n (c + 1)) = true := by
  simpa [drawnIndices, validDraws] using hv

theorem validDraws_drawnIndices (draw : Draws)
    (hd : ∀ k currentIndex : Nat, 0 < currentIndex → draw k currentIndex < currentIndex)
    (n c : Nat) : validDraws n (drawnIndices draw n c) = true := by
  induction n generalizing c with
  | zero => rfl
  | succ n ih =>
    simp only [drawnIndices, validDraws, Bool.and_eq_true, decide_eq_true_eq]
    exact ⟨hd c (n + 1) (Nat.succ_pos n), ih _⟩

theorem validDraws_length {n : Nat} {ds : List Nat} (h : validDraws n ds = true) :
    ds.length = n := by
  induction n generalizing ds with
  | zero =>
    cases ds with
    | nil => rfl
    | cons d ds => simp [validDraws] at h
  | succ n ih =>
    cases ds with
    | nil => simp [validDraws] at h
    | cons d ds =>
      simp only [validDraws, Bool.and_eq_true, decide_eq_true_eq] at h
      simp [ih h.2]

theorem loopBody_eq {α : Type} (u : α) (draw : Draws) (a : List α) (i c : Nat)
    (hi : i < a.length) (hj : draw c (i + 1) < i + 1) :
    loopBody u draw { array := a, currentIndex := i + 1, calls := c }
      = { array := (a.set i (a.getD (draw c (i + 1)) u)).set (draw c (i + 1)) (a.getD i u),
          currentIndex := i, calls := c + 1 } := by
  simp only [loopBody, Nat.add_sub_cancel]
  rw [exchange_eq u a hi (by omega)]

theorem shuffleLoop_succ {α : Type} (u : α) (draw : Draws) (a : List α) (i c : Nat)
    (hi : i < a.length) (hj : draw c (i + 1) < i + 1) :
    shuffleLoop u draw (i + 1) c a
      = shuffleLoop u draw i (c + 1)
          ((a.set i (a.getD (draw c (i + 1)) u)).set (draw c (i + 1)) (a.getD i u)) := by
  rw [shuffleLoop, loopBody_eq u draw a i c hi hj]

theorem shuffleLoop_eq_iterate {α : Type} (u : α) (draw : Draws) (n c : Nat)
    (a : List α) :
    shuffleLoop u draw n c a
      = (loopBody u draw)^[n] { array := a, currentIndex := n, calls := c } := by
  induction n generalizing c a with
  | zero => rfl
  | succ n ih =>
    rw [shuffleLoop, Function.iterate_succ_apply, ih]
    rfl

theorem shuffleLoop_calls {α : Type} (u : α) (draw : Draws) (n c : Nat)
    (a : List α) : (shuffleLoop u draw n c a).calls = c + n := by
  induction n generalizing c a with
  | zero => rfl
  | succ n ih =>
    rw [shuffleLoop, ih]
    simp only [loopBody]
    omega

theorem shuffleLoop_perm {α : Type} (u : α) (draw : Draws) (n c : Nat)
    (a : List α) (hn : n ≤ a.length)
    (hv : validDraws n (drawnIndices draw n c) = true) :
    (shuffleLoop u draw n c a).array.Perm a := by
  induction n generalizing c a with
  | zero => exact List.Perm.refl _
  | succ n ih =>
    obtain ⟨hj, hv⟩ := validDraws_succ hv
    rw [shuffleLoop_succ u draw a n c hn hj]
    exact (ih _ _ (by rw [exchange_length]; omega) hv).trans
      (exchange_perm u a hn (by omega))

/-- The loop started at `n` leaves the positions from `n` on as they are. -/
theorem shuffleLoop_getElem?_of_le {α : Type} (u : α) (draw : Draws) (n c : Nat)
    (a : List α) (hn : n ≤ a.length)
    (hv : validDraws n (drawnIndices draw n c) = true) (k : Nat) (hk : n ≤ k) :
    (shuffleLoop u draw n c a).array[k]? = a[k]? := by
  induction n generalizing c a with
  | zero => rfl
  | succ n ih =>
    obtain ⟨hj, hv⟩ := validDraws_succ hv
    rw [shuffleLoop_succ u draw a n c hn hj,
      ih _ _ (by rw [exchange_length]; omega) hv (by omega),
      exchange_getElem? u a hn (by omega) k]
    rw [if_neg (by omega), if_neg (by omega)]

/-- The state the loop is in when it has made `k` passes. -/
theorem iterate_loopBody {α : Type} (u : α) (draw : Draws)
    (hd : ∀ k currentIndex : Nat, 0 < currentIndex → draw k currentIndex < currentIndex)
    (a : List α) (k : Nat) (hk : k ≤ a.length) :
    ((loopBody u draw)^[k] { array := a, currentIndex := a.length, calls := 0 }).currentIndex
        = a.length - k
      ∧ ((loopBody u draw)^[k] { array := a, currentIndex := a.length, calls := 0 }).calls = k
      ∧ ((loopBody u draw)^[k]
          { array := a, currentIndex := a.length, calls := 0 }).array.length = a.length := by
  induction k with
  | zero => exact ⟨rfl, rfl, rfl⟩
  | succ k ih =>
    obtain ⟨h1, h2, h3⟩ := ih (by omega)
    rw [Function.iterate_succ_apply']
    generalize (loopBody u draw)^[k] { array := a, currentIndex := a.length, calls := 0 } = s
      at h1 h2 h3
    obtain ⟨b, ci, c⟩ := s
    simp only at h1 h2 h3
    obtain ⟨i, rfl⟩ : ∃ i, ci = i + 1 := ⟨ci - 1, by omega⟩
    rw [loopBody_eq u draw b i c (by omega) (hd c (i + 1) (Nat.succ_pos i))]
    refine ⟨?_, ?_, ?_⟩
    · simp only; omega
    · simp only; omega
    · simp only [exchange_length]; exact h3

/-! ### The draws of a run and the ordering they produce -/

/-- The array the loop ends with is fixed by the indices drawn. -/
theorem shuffleLoop_congr {α : Type} (u : α) (draw₁ draw₂ : Draws) (n c₁ c₂ : Nat)
    (a : List α) (h : drawnIndices draw₁ n c₁ = drawnIndices draw₂ n c₂) :
    (shuffleLoop u draw₁ n c₁ a).array = (shuffleLoop u draw₂ n c₂ a).array := by
  induction n generalizing c₁ c₂ a with
  | zero => rfl
  | succ n ih =>
    simp only [drawnIndices, List.cons.injEq] at h
    rw [shuffleLoop, shuffleLoop]
    simp only [loopBody, Nat.add_sub_cancel, h.1]
    exact ih _ _ _ h.2

/-- The draws of `listDraws ds` are the indices of `ds`. -/
theorem drawnIndices_listDraws (ds : List Nat) :
    drawnIndices (listDraws ds) ds.length 0 = ds := by
  have key : ∀ (m c : Nat), ds.length = m + c →
      drawnIndices (listDraws ds) m c = ds.drop c := by
    intro m
    induction m with
    | zero =>
      intro c hc
      simp only [drawnIndices]
      exact (List.drop_eq_nil_of_le (by omega)).symm
    | succ m ih =>
      intro c hc
      have hcl : c < ds.length := by omega
      rw [List.drop_eq_getElem_cons hcl]
      simp only [drawnIndices]
      rw [ih (c + 1) (by omega)]
      congr 1
      simp [listDraws, List.getD, hcl]
  simpa using key ds.length 0 rfl

/-- Distinct items: two runs that end with the same array drew the same indices. -/
theorem drawnIndices_eq_of_shuffleLoop_eq {α : Type} (u : α) (draw₁ draw₂ : Draws)
    (n c₁ c₂ : Nat) (a : List α) (hn : n ≤ a.length) (hnd : (a.take n).Nodup)
    (hv₁ : validDraws n (drawnIndices draw₁ n c₁) = true)
    (hv₂ : validDraws n (drawnIndices draw₂ n c₂) = true)
    (h : (shuffleLoop u draw₁ n c₁ a).array = (shuffleLoop u draw₂ n c₂ a).array) :
    drawnIndices draw₁ n c₁ = drawnIndices draw₂ n c₂ := by
  induction n generalizing c₁ c₂ a with
  | zero => rfl
  | succ n ih =>
    obtain ⟨hj₁n, hv₁⟩ := validDraws_succ hv₁
    obtain ⟨hj₂n, hv₂⟩ := validDraws_succ hv₂
    rw [shuffleLoop_succ u draw₁ a n c₁ hn hj₁n, shuffleLoop_succ u draw₂ a n c₂ hn hj₂n] at h
    generalize hj₁ : draw₁ c₁ (n + 1) = j₁ at hj₁n h
    generalize hj₂ : draw₂ c₂ (n + 1) = j₂ at hj₂n h
    -- the element left at position `n` tells the index drawn
    have hat := congrArg (fun l : List α => l[n]?) h
    simp only at hat
    rw [shuffleLoop_getElem?_of_le u draw₁ n _ _ (by rw [exchange_length]; omega) hv₁ n
        (Nat.le_refl n),
      shuffleLoop_getElem?_of_le u draw₂ n _ _ (by rw [exchange_length]; omega) hv₂ n
        (Nat.le_refl n),
      exchange_getElem? u a hn (by omega) n, exchange_getElem? u a hn (by omega) n] at hat
    have hval : a[j₁]? = a[j₂]? := by
      by_cases e1 : n = j₁ <;> by_cases e2 : n = j₂
      · rw [← e1, ← e2]
      · rw [if_pos e1, if_neg e2, if_pos rfl] at hat
        rw [← e1]; exact hat
      · rw [if_neg e1, if_pos rfl, if_pos e2] at hat
        rw [← e2]; exact hat
      · rw [if_neg e1, if_pos rfl, if_neg e2, if_pos rfl] at hat
        exact hat
    have hjj : j₁ = j₂ := by
      have h1 : (a.take (n + 1))[j₁]? = (a.take (n + 1))[j₂]? := by
        rw [List.getElem?_take_of_lt hj₁n, List.getElem?_take_of_lt hj₂n]; exact hval
      have hl : (a.take (n + 1)).length = n + 1 := by simp; omega
      rw [List.getElem?_eq_getElem (by omega), List.getElem?_eq_getElem (by omega)] at h1
      exact (List.Nodup.getElem_inj_iff hnd).1 (Option.some.inj h1)
    subst hjj
    simp only [drawnIndices, hj₁, hj₂, List.cons.injEq, true_and]
    refine ih _ _ _ (by rw [exchange_length]; omega) ?_ hv₁ hv₂ h
    -- the first `n` positions after the exchange still hold distinct items
    have hperm := exchange_take_perm u a hn (show j₁ ≤ n by omega)
    have hnd' := (List.Perm.nodup_iff hperm).2 hnd
    have hsub : (((a.set n (a.getD j₁ u)).set j₁ (a.getD n u)).take n).Sublist
        (((a.set n (a.getD j₁ u)).set j₁ (a.getD n u)).take (n + 1)) :=
      List.take_sublist_take_left _ (Nat.le_succ n)
    exact hnd'.sublist hsub

/-- Every ordering of the items is the outcome of some valid sequence of draws. -/
theorem exists_draws_of_perm {α : Type} (u : α) (n : Nat) (a t : List α) (hn : n ≤ a.length)
    (hp : (t.take n).Perm (a.take n)) (hd : t.drop n = a.drop n) :
    ∃ ds : List Nat, validDraws n ds = true ∧
      ∀ (draw : Draws) (c : Nat), drawnIndices draw n c = ds →
        (shuffleLoop u draw n c a).array = t := by
  induction n generalizing a with
  | zero =>
    refine ⟨[], rfl, ?_⟩
    intro draw c _
    simpa using hd.symm
  | succ n ih =>
    have hlt : (t.take (n + 1)).length = n + 1 := by
      rw [hp.length_eq, List.length_take]; omega
    have htn : n < t.length := by
      rw [List.length_take] at hlt; omega
    -- the item wanted at position `n` sits at some index `j ≤ n` of the array
    have hx : t[n] ∈ a.take (n + 1) := by
      apply hp.subset
      rw [List.mem_iff_getElem]
      exact ⟨n, by omega, by simp⟩
    obtain ⟨j, hjl, hj⟩ := List.mem_iff_getElem.1 hx
    have hjn : j < n + 1 := by
      rw [List.length_take] at hjl; omega
    have haj : a[j]? = some t[n] := by
      rw [← List.getElem?_take_of_lt hjn, List.getElem?_eq_getElem hjl, hj]
    have hbn : ((a.set n (a.getD j u)).set j (a.getD n u))[n]? = some t[n] := by
      rw [exchange_getElem? u a hn (by omega) n]
      by_cases e : n = j
      · rw [if_pos e]
        have haj' := haj
        rw [← e] at haj'
        exact haj'
      · rw [if_neg e, if_pos rfl]; exact haj
    have hbl : ((a.set n (a.getD j u)).set j (a.getD n u)).length = a.length :=
      exchange_length u a n j
    have hnb : n < ((a.set n (a.getD j u)).set j (a.getD n u)).length := by omega
    have hbn' : ((a.set n (a.getD j u)).set j (a.getD n u))[n] = t[n] := by
      rw [List.getElem?_eq_getElem (by omega)] at hbn
      exact Option.some.inj hbn
    have hp' : (t.take n).Perm (((a.set n (a.getD j u)).set j (a.getD n u)).take n) := by
      have h1 : (t.take (n + 1)).Perm
          (((a.set n (a.getD j u)).set j (a.getD n u)).take (n + 1)) :=
        hp.trans (exchange_take_perm u a hn (by omega)).symm
      rw [List.take_succ, List.take_succ, hbn, List.getElem?_eq_getElem htn] at h1
      exact (List.perm_append_right_iff _).1 h1
    have hd' : t.drop n = ((a.set n (a.getD j u)).set j (a.getD n u)).drop n := by
      rw [List.drop_eq_getElem_cons htn,
        List.drop_eq_getElem_cons (show n < _ by omega), hbn',
        exchange_drop u a hn (by omega), hd]
    obtain ⟨ds, hv, hds⟩ := ih _ (by omega) hp' hd'
    refine ⟨j :: ds, ?_, ?_⟩
    · simp only [validDraws, Bool.and_eq_true, decide_eq_true_eq]
      exact ⟨hjn, hv⟩
    · intro draw c hdr
      simp only [drawnIndices, List.cons.injEq] at hdr
      rw [shuffleLoop_succ u draw a n c hn (by rw [hdr.1]; exact hjn), hdr.1]
      exact hds draw (c + 1) hdr.2

/-! ### Counting the sequences of draws -/

theorem mem_allDraws (n : Nat) (ds : List Nat) :
    ds ∈ allDraws n ↔ validDraws n ds = true := by
  induction n generalizing ds with
  | zero =>
    cases ds with
    | nil => simp [allDraws, validDraws]
    | cons d ds => simp [allDraws, validDraws]
  | succ n ih =>
    cases ds with
    | nil => simp [allDraws, validDraws]
    | cons d ds =>
      simp only [allDraws, List.mem_flatMap, List.mem_range, List.mem_map, List.cons.injEq,
        validDraws, Bool.and_eq_true, decide_eq_true_eq]
      constructor
      · rintro ⟨e, he, es, hes, rfl, rfl⟩
        exact ⟨he, (ih es).1 hes⟩
      · rintro ⟨hd, hv⟩
        exact ⟨d, hd, ds, (ih ds).2 hv, rfl, rfl⟩

theorem length_allDraws (n : Nat) : (allDraws n).length = n.factorial := by
  induction n with
  | zero => rfl
  | succ n ih =>
    have h : ∀ (m : Nat), ((List.range m).flatMap
        (fun d => (allDraws n).map (fun ds => d :: ds))).length = m * n.factorial := by
      intro m
      induction m with
      | zero => simp
      | succ m ihm =>
        rw [List.range_succ, List.flatMap_append, List.length_append, ihm]
        simp [ih]
        ring
    rw [allDraws, h, Nat.factorial_succ]

theorem nodup_allDraws (n : Nat) : (allDraws n).Nodup := by
  induction n with
  | zero => simp [allDraws]
  | succ n ih =>
    rw [allDraws, List.nodup_flatMap]
    refine ⟨?_, ?_⟩
    · intro d _
      exact ih.map (fun x y h => (List.cons.inj h).2)
    · refine List.Pairwise.imp_of_mem ?_ (List.nodup_range (n + 1))
      intro d e _ _ hde
      simp only [Function.onFun, List.disjoint_left, List.mem_map]
      rintro ds ⟨x, _, rfl⟩ ⟨y, _, hy⟩
      exact hde (List.cons.inj hy).1.symm

/-- The array returned for draws made from `Math.random()` is a permutation of the
input. -/
theorem shuffle_mathRandom_perm {α : Type} (u : α) (rand : RandomSource) (array : List α) :
    (shuffle u (mathRandom rand) array).returned.Perm array :=
  shuffleLoop_perm u _ array.length 0 array (Nat.le_refl _)
    (validDraws_drawnIndices _ (fun k _ h => mathRandom_lt rand k h) _ _)

/-! ### Lemmas on the `load` handler -/

theorem split_ne_nil (s : JSString) : split s ≠ [] := by
  cases s with
  | nil => simp [split]
  | cons c cs =>
    rw [split]
    split_ifs
    · simp
    · split <;> simp

theorem forEach_strings (snippets : List JSString) (typewriter : List TypeItCall) :
    forEach (snippets.map JSValue.string) typewriter
      = (Completion.normal, typewriter ++ snippets.flatMap (fun s =>
          [TypeItCall.type (JSValue.string s) 3000, TypeItCall.delete s.length 200])) := by
  induction snippets generalizing typewriter with
  | nil => simp [forEach]
  | cons s rest ih =>
    simp only [List.map_cons, forEach, typeAndDelete, List.flatMap_cons]
    rw [ih]
    simp

theorem length_scheduled (snippets : List JSString) :
    (snippets.flatMap (fun s =>
      [TypeItCall.type (JSValue.string s) 3000, TypeItCall.delete s.length 200])).length
      = 2 * snippets.length := by
  induction snippets with
  | nil => rfl
  | cons s rest ih =>
    simp only [List.flatMap_cons, List.length_append, List.length_cons, ih]
    simp
    omega

/-- A reordering of an array of strings is an array of strings. -/
theorem exists_strings_of_perm (l : List JSValue) (strings : List JSString)
    (h : l.Perm (strings.map JSValue.string)) :
    ∃ snippets : List JSString, l = snippets.map JSValue.string ∧ snippets.Perm strings := by
  have hfm : ∀ l : List JSString, (l.map JSValue.string).filterMap (fun v => match v with
      | JSValue.string s => some s
      | JSValue.undefined => none) = l := by
    intro l
    induction l with
    | nil => rfl
    | cons s rest ih => simp [List.filterMap_cons, ih]
  have hall : ∀ l : List JSValue, (∀ v ∈ l, ∃ s, v = JSValue.string s) →
      (l.filterMap (fun v => match v with
        | JSValue.string s => some s
        | JSValue.undefined => none)).map JSValue.string = l := by
    intro l
    induction l with
    | nil => intro _; rfl
    | cons v rest ih =>
      intro hv
      obtain ⟨s, rfl⟩ := hv v (List.mem_cons_self _ _)
      simp only [List.filterMap_cons, List.map_cons]
      rw [ih (fun w hw => hv w (List.mem_cons_of_mem _ hw))]
  refine ⟨l.filterMap (fun v => match v with
      | JSValue.string s => some s
      | JSValue.undefined => none), ?_, ?_⟩
  · refine (hall l ?_).symm
    intro v hv
    obtain ⟨s, _, rfl⟩ := List.mem_map.1 (h.subset hv)
    exact ⟨s, rfl⟩
  · have := h.filterMap (fun v => match v with
      | JSValue.string s => some s
      | JSValue.undefined => none)
    rwa [hfm] at this

theorem getElementById_eq_none (elements : List Element) (id : String)
    (h : ∀ e ∈ elements, e.id ≠ id) : getElementById elements id = none := by
  rw [getElementById, List.find?_eq_none]
  intro e he
  simpa using h e he

theorem loadHandler_eq (rand : RandomSource) (page : Page) (logoEl : Element)
    (values : JSString) (snippets : List JSString)
    (hel : getElementById page.elements "logo-text" = some logoEl)
    (hvalues : logoEl.values = some values)
    (h : (shuffle JSValue.undefined (mathRandom rand)
        ((split values).map JSValue.string)).returned = snippets.map JSValue.string) :
    loadHandler rand page
      = (Completion.normal,
          { elements := setInnerHTML page.elements "logo-text" [],
            typewriter := page.typewriter ++ [TypeItCall.construct "#logo-text" 75 false true]
              ++ snippets.flatMap (fun s =>
                [TypeItCall.type (JSValue.string s) 3000, TypeItCall.delete s.length 200])
              ++ [TypeItCall.go] }) := by
  simp only [loadHandler, hel, hvalues, h, forEach_strings]

/-! ### Lemmas on the output path -/

theorem foldl_joinSegment (acc l : Path) (h : Normalised l) :
    l.foldl joinSegment acc = acc ++ l := by
  induction l generalizing acc with
  | nil => simp
  | cons segment rest ih =>
    have hs := h segment (List.mem_cons_self _ _)
    rw [List.foldl_cons, ih _ (fun s hs => h s (List.mem_cons_of_mem _ hs))]
    simp [joinSegment, hs.1, hs.2.1, hs.2.2]

theorem normalised_dropLast {p : Path} (h : Normalised p) : Normalised p.dropLast :=
  fun s hs => h s (List.mem_of_mem_dropLast hs)

theorem join_static (cwd : Path) (h : Normalised cwd) :
    join cwd ["..", "..", "static"] = cwd.dropLast.dropLast ++ ["static"] := by
  rw [join, List.foldl_append, foldl_joinSegment [] cwd h]
  simp [joinSegment]

theorem join_outputPath (cwd : Path) (h : Normalised cwd) :
    join (join cwd ["..", "..", "static"]) ["og-image.png"]
      = cwd.dropLast.dropLast ++ ["static", "og-image.png"] := by
  have hn : Normalised (cwd.dropLast.dropLast ++ ["static", "og-image.png"]) := by
    intro s hs
    rcases List.mem_append.1 hs with hs | hs
    · exact normalised_dropLast (normalised_dropLast h) s hs
    · simp only [List.mem_cons, List.mem_singleton, List.not_mem_nil, or_false] at hs
      rcases hs with rfl | rfl <;> decide
  rw [join_static cwd h, join, foldl_joinSegment [] _ (by simpa using hn)]
  simp

theorem specOutputPath_eq (scriptDir : Path) (h : Normalised scriptDir) :
    specOutputPath scriptDir = scriptDir.dropLast.dropLast ++ ["static", "og-image.png"] := by
  rw [specOutputPath, join, List.foldl_append, foldl_joinSegment [] scriptDir h]
  simp [joinSegment]

/-- A run takes no screenshot or one, at the path joined from the working directory. -/
theorem screenshotPaths_run (env : Env) :
    screenshotPaths (run env).calls = []
      ∨ screenshotPaths (run env).calls
          = [join (join env.cwd ["..", "..", "static"]) ["og-image.png"]] := by
  obtain ⟨cwd, de, b1, b2, b3, b4, b5, b6, b7, b8⟩ := env
  cases de <;> cases b1 <;> cases b2 <;> cases b3 <;> cases b4 <;> cases b5 <;> cases b6 <;>
    cases b7 <;> cases b8 <;> first | exact Or.inl rfl | exact Or.inr rfl

/-! ### Lemmas on the exit status -/

theorem exitCode_eq (env : Env) :
    (run env).exitCode
      = if (env.launchFails || env.newPageFails || env.setViewportFails
            || env.setContentFails || (!env.dirExists && env.mkdirFails)
            || env.screenshotFails || env.statFails || env.closeFails) = true
        then 1 else 0 := by
  obtain ⟨cwd, de, b1, b2, b3, b4, b5, b6, b7, b8⟩ := env
  cases de <;> cases b1 <;> cases b2 <;> cases b3 <;> cases b4 <;> cases b5 <;> cases b6 <;>
    cases b7 <;> cases b8 <;> rfl

/-! ### Claims on `shuffle` -/

/-- C1: for every input array and every sequence of random draws, `shuffle` returns a
permutation of the input: the returned array has the same length and holds every
element the same number of times as the input; an array of no or one element is
returned as it is. -/
theorem shuffle_returns_permutation {α : Type} [DecidableEq α] (undefined : α)
    (rand : RandomSource) (array : List α) :
    (shuffle undefined (mathRandom rand) array).returned.Perm array
      ∧ (shuffle undefined (mathRandom rand) array).returned.length = array.length
      ∧ (∀ x : α,
          (shuffle undefined (mathRandom rand) array).returned.count x = array.count x)
      ∧ (shuffle undefined (mathRandom rand) ([] : List α)).returned = []
      ∧ ∀ x : α, (shuffle undefined (mathRandom rand) [x]).returned = [x] := by
  have hp : (shuffle undefined (mathRandom rand) array).returned.Perm array :=
    shuffle_mathRandom_perm undefined rand array
  refine ⟨hp, hp.length_eq, fun x => hp.count_eq x, rfl, fun x => ?_⟩
  exact List.perm_singleton.1 (shuffle_mathRandom_perm undefined rand [x])

/-- C2: for an array of `N` pairwise distinct items there are `N!` sequences of draws
(each draw an index in `[0, currentIndex - 1]`); a run draws one of them, which fixes
the array returned, an ordering of the items; and every ordering of the items is
returned for exactly one of the `N!` sequences: draw sequences and orderings
correspond one to one, so uniform draws make every ordering equally likely. -/
theorem shuffle_draws_bijective {α : Type} [DecidableEq α] (undefined : α) (array : List α)
    (hdistinct : array.Nodup) :
    (allDraws array.length).length = array.length.factorial
      ∧ (allDraws array.length).Nodup
      ∧ (∀ ds : List Nat, ds ∈ allDraws array.length ↔ validDraws array.length ds = true)
      ∧ (∀ rand : RandomSource,
          drawnIndices (mathRandom rand) array.length 0 ∈ allDraws array.length)
      ∧ (∀ draw : Draws, (shuffle undefined draw array).returned
          = (shuffle undefined (listDraws (drawnIndices draw array.length 0)) array).returned)
      ∧ (∀ ds ∈ allDraws array.length,
          (shuffle undefined (listDraws ds) array).returned.Perm array)
      ∧ (∀ ordering : List α, ordering.Perm array →
          ∃! ds : List Nat, ds ∈ allDraws array.length
            ∧ (shuffle undefined (listDraws ds) array).returned = ordering)
      ∧ ∀ ordering : List α, ordering.Perm array →
          ((allDraws array.length).filter (fun ds =>
            (shuffle undefined (listDraws ds) array).returned = ordering)).length = 1 := by
  -- the draws of `listDraws ds` on this array are `ds`
  have hlist : ∀ ds : List Nat, validDraws array.length ds = true →
      drawnIndices (listDraws ds) array.length 0 = ds := by
    intro ds hv
    have h := drawnIndices_listDraws ds
    rwa [validDraws_length hv] at h
  have hex : ∀ ordering : List α, ordering.Perm array →
      ∃ ds : List Nat, validDraws array.length ds = true ∧
        (shuffle undefined (listDraws ds) array).returned = ordering := by
    intro ordering hperm
    obtain ⟨ds, hv, hds⟩ := exists_draws_of_perm undefined array.length array ordering
      (Nat.le_refl _)
      (by rw [List.take_length, ← hperm.length_eq, List.take_length]; exact hperm)
      (by rw [List.drop_length, ← hperm.length_eq, List.drop_length])
    exact ⟨ds, hv, hds _ 0 (hlist ds hv)⟩
  have huniq : ∀ ds es : List Nat, validDraws array.length ds = true →
      validDraws array.length es = true →
      (shuffle undefined (listDraws ds) array).returned
        = (shuffle undefined (listDraws es) array).returned → ds = es := by
    intro ds es hds hes h
    have := drawnIndices_eq_of_shuffleLoop_eq undefined (listDraws ds) (listDraws es)
      array.length 0 0 array (Nat.le_refl _) (by rw [List.take_length]; exact hdistinct)
      (by rw [hlist ds hds]; exact hds) (by rw [hlist es hes]; exact hes) h
    rwa [hlist ds hds, hlist es hes] at this
  refine ⟨length_allDraws _, nodup_allDraws _, mem_allDraws _, ?_, ?_, ?_, ?_, ?_⟩
  · intro rand
    exact (mem_allDraws _ _).2
      (validDraws_drawnIndices _ (fun k _ h => mathRandom_lt rand k h) _ _)
  · intro draw
    refine shuffleLoop_congr undefined _ _ array.length 0 0 array ?_
    have h := drawnIndices_listDraws (drawnIndices draw array.length 0)
    have hlen : ∀ (n c : Nat), (drawnIndices draw n c).length = n := by
      intro n
      induction n with
      | zero => intro c; rfl
      | succ n ih => intro c; simp [drawnIndices, ih]
    rw [hlen] at h
    exact h.symm
  · intro ds hds
    have hv := (mem_allDraws _ _).1 hds
    exact shuffleLoop_perm undefined _ array.length 0 array (Nat.le_refl _)
      (by rw [hlist ds hv]; exact hv)
  · intro ordering hperm
    obtain ⟨ds, hv, hds⟩ := hex ordering hperm
    refine ⟨ds, ⟨(mem_allDraws _ _).2 hv, hds⟩, ?_⟩
    rintro es ⟨hes, hout⟩
    exact huniq es ds ((mem_allDraws _ _).1 hes) hv (hout.trans hds.symm)
  · intro ordering hperm
    obtain ⟨ds, hv, hds⟩ := hex ordering hperm
    have hall : ∀ es ∈ (allDraws array.length).filter (fun ds =>
        (shuffle undefined (listDraws ds) array).returned = ordering), es = ds := by
      intro es hes
      rw [List.mem_filter, mem_allDraws, decide_eq_true_eq] at hes
      exact huniq es ds hes.1 hv (hes.2.trans hds.symm)
    have hmem : ds ∈ (allDraws array.length).filter (fun ds =>
        (shuffle undefined (listDraws ds) array).returned = ordering) := by
      rw [List.mem_filter, mem_allDraws, decide_eq_true_eq]
      exact ⟨hv, hds⟩
    have hnd := (nodup_allDraws array.length).filter (fun ds =>
      decide ((shuffle undefined (listDraws ds) array).returned = ordering))
    generalize (allDraws array.length).filter (fun ds =>
      decide ((shuffle undefined (listDraws ds) array).returned = ordering))
        = found at hall hmem hnd
    cases found with
    | nil => simp at hmem
    | cons e rest =>
      cases rest with
      | nil => rfl
      | cons e₂ rest =>
        have h1 := hall e (List.mem_cons_self _ _)
        have h2 := hall e₂ (List.mem_cons_of_mem _ (List.mem_cons_self _ _))
        rw [h1, h2] at hnd
        simp at hnd

/-- Witness for C2: the three distinct items `1, 2, 3` and their `3! = 6` orderings;
the ordering `3, 1, 2` is returned for the draws `1, 0, 0` and for no other. -/
theorem shuffle_draws_bijective_witness :
    [1, 2, 3].Nodup
      ∧ (allDraws 3).length = 6
      ∧ (shuffle 0 (listDraws [1, 0, 0]) [1, 2, 3]).returned = [3, 1, 2]
      ∧ ∃! ds : List Nat, ds ∈ allDraws 3
          ∧ (shuffle 0 (listDraws ds) [1, 2, 3]).returned = [3, 1, 2] :=
  ⟨by decide, by decide, by decide,
    (shuffle_draws_bijective 0 [1, 2, 3] (by decide)).2.2.2.2.2.2.1 [3, 1, 2] (by decide)⟩

/-- C7, as the code has it: the array passed in is reordered in place. With the two
items `1, 2` and every random value `0`, the array passed in holds `2, 1` after the
call. -/
theorem shuffle_reorders_argument :
    (shuffle 0 (mathRandom (always zero)) [1, 2]).argument ≠ [1, 2] := by
  decide

/-- C7 amended: `shuffle` consumes one random draw per element and reorders the array
passed in, in place: after the call that array is the returned array, a permutation
of what it held before, of the same length. -/
theorem shuffle_argument_after_call {α : Type} (undefined : α) (rand : RandomSource)
    (array : List α) :
    (shuffle undefined (mathRandom rand) array).argument
        = (shuffle undefined (mathRandom rand) array).returned
      ∧ (shuffle undefined (mathRandom rand) array).argument.Perm array
      ∧ (shuffle undefined (mathRandom rand) array).argument.length = array.length
      ∧ (shuffle undefined (mathRandom rand) array).calls = array.length := by
  have hp : (shuffle undefined (mathRandom rand) array).argument.Perm array :=
    shuffleLoop_perm undefined _ array.length 0 array (Nat.le_refl _)
      (validDraws_drawnIndices _ (fun k _ h => mathRandom_lt rand k h) _ _)
  refine ⟨rfl, hp, hp.length_eq, ?_⟩
  simp [shuffle, shuffleLoop_calls]

/-- C10: let `s` be the state of the loop after `k` passes on an array of length `N`,
`k < N`. The guard holds in `s`; the random index `j` of the next pass is the floor of
the product of the random value and `currentIndex`, as double arithmetic rounds it;
the position `i` (`currentIndex` after the decrement) and `j` satisfy
`0 ≤ j ≤ i < N`; the array has length `N` before and after the pass; and the loop is
these `N` passes. -/
theorem shuffle_indices_in_bounds {α : Type} (undefined : α) (rand : RandomSource)
    (array : List α) (k : Nat) (hk : k < array.length) (s : ShuffleState α)
    (hs : s = (loopBody undefined (mathRandom rand))^[k]
      { array := array, currentIndex := array.length, calls := 0 }) :
    s.currentIndex ≠ 0
      ∧ s.array.length = array.length
      ∧ mathRandom rand s.calls s.currentIndex
          = ⌊((roundToDouble ((rand s.calls).mant * s.currentIndex) : ℕ) : ℚ)
              / ((2 ^ (rand s.calls).expo : ℕ) : ℚ)⌋₊
      ∧ 0 ≤ mathRandom rand s.calls s.currentIndex
      ∧ mathRandom rand s.calls s.currentIndex ≤ s.currentIndex - 1
      ∧ s.currentIndex - 1 < array.length
      ∧ (loopBody undefined (mathRandom rand) s).currentIndex = s.currentIndex - 1
      ∧ (loopBody undefined (mathRandom rand) s).array.length = array.length
      ∧ shuffleLoop undefined (mathRandom rand) array.length 0 array
          = (loopBody undefined (mathRandom rand))^[array.length]
              { array := array, currentIndex := array.length, calls := 0 } := by
  have hd : ∀ k currentIndex : Nat, 0 < currentIndex →
      mathRandom rand k currentIndex < currentIndex := fun k _ h => mathRandom_lt rand k h
  obtain ⟨h1, _, h3⟩ := iterate_loopBody undefined _ hd array k (Nat.le_of_lt hk)
  obtain ⟨_, _, h3'⟩ := iterate_loopBody undefined _ hd array (k + 1) hk
  rw [Function.iterate_succ_apply', ← hs] at h3'
  rw [← hs] at h1 h3
  have hlt := hd s.calls s.currentIndex (by omega)
  refine ⟨by omega, h3, ?_, Nat.zero_le _, by omega, by omega, rfl, h3',
    shuffleLoop_eq_iterate _ _ _ _ _⟩
  rw [Nat.floor_div_eq_div]
  rfl

/-- Witness for C10: the first pass on an array of three items, the random value being
the double `0.3333333333333333`: its product with 3 rounds to 1, so the index drawn
is 1, and the position is 2. -/
theorem shuffle_indices_in_bounds_witness :
    0 < [10, 20, 30].length
      ∧ mathRandom (always third) 0 3 = 1
      ∧ mathRandom (always third) 0 3 ≤ 3 - 1 :=
  ⟨by decide, by decide,
    (shuffle_indices_in_bounds 0 (always third) [10, 20, 30] 0 (by decide) _ rfl).2.2.2.2.1⟩

/-! ### Claims on the `load` handler -/

/-- C3: for every list of `N` snippets, the loop of the handler issues exactly `2N`
calls, for each snippet `s` in list order `type(s)` with delay 3000 and then
`delete(s.length)` with delay 200; on a page that has the element and its attribute,
the handler makes these calls for the shuffled snippets, between constructing the
typewriter and `go()`; for `a`, `bb`, `ccc` they are `type(a)`, `delete(1)`,
`type(bb)`, `delete(2)`, `type(ccc)`, `delete(3)`. -/
theorem loadHandler_schedules_type_then_delete (rand : RandomSource) (page : Page)
    (logoEl : Element) (values : JSString)
    (hel : getElementById page.elements "logo-text" = some logoEl)
    (hvalues : logoEl.values = some values) :
    (∀ (snippets : List JSString) (typewriter : List TypeItCall),
        forEach (snippets.map JSValue.string) typewriter
            = (Completion.normal, typewriter ++ snippets.flatMap (fun s =>
                [TypeItCall.type (JSValue.string s) 3000, TypeItCall.delete s.length 200]))
          ∧ (snippets.flatMap (fun s =>
                [TypeItCall.type (JSValue.string s) 3000,
                  TypeItCall.delete s.length 200])).length = 2 * snippets.length)
      ∧ (∃ snippets : List JSString,
          (shuffle JSValue.undefined (mathRandom rand)
              ((split values).map JSValue.string)).returned = snippets.map JSValue.string
            ∧ snippets.Perm (split values)
            ∧ loadHandler rand page
              = (Completion.normal,
                  { elements := setInnerHTML page.elements "logo-text" [],
                    typewriter :=
                      page.typewriter ++ [TypeItCall.construct "#logo-text" 75 false true]
                        ++ snippets.flatMap (fun s =>
                            [TypeItCall.type (JSValue.string s) 3000,
                              TypeItCall.delete s.length 200])
                        ++ [TypeItCall.go] }))
      ∧ forEach [JSValue.string (codeUnits "a"), JSValue.string (codeUnits "bb"),
            JSValue.string (codeUnits "ccc")] []
          = (Completion.normal,
              [TypeItCall.type (JSValue.string (codeUnits "a")) 3000, TypeItCall.delete 1 200,
                TypeItCall.type (JSValue.string (codeUnits "bb")) 3000, TypeItCall.delete 2 200,
                TypeItCall.type (JSValue.string (codeUnits "ccc")) 3000,
                TypeItCall.delete 3 200]) := by
  refine ⟨fun snippets typewriter => ⟨forEach_strings _ _, length_scheduled _⟩, ?_, by decide⟩
  obtain ⟨snippets, hs, hp⟩ := exists_strings_of_perm _ (split values)
    (shuffle_mathRandom_perm JSValue.undefined rand ((split values).map JSValue.string))
  exact ⟨snippets, hs, hp, loadHandler_eq rand page logoEl values snippets hel hvalues hs⟩

/-- Witness for C3: a page whose `logo-text` element carries `a,bb,ccc`, every random
value being `0`: the snippets are shuffled to `bb`, `ccc`, `a` and the handler makes
the constructor call, the six calls for them in that order, and `go()`. -/
theorem loadHandler_schedules_type_then_delete_witness :
    getElementById [{ id := "logo-text", innerHTML := codeUnits "hello world",
                      values := some (codeUnits "a,bb,ccc") }] "logo-text"
        = some { id := "logo-text", innerHTML := codeUnits "hello world",
                 values := some (codeUnits "a,bb,ccc") }
      ∧ loadHandler
          (always zero)
          { elements := [{ id := "logo-text", innerHTML := codeUnits "hello world",
                           values := some (codeUnits "a,bb,ccc") }],
            typewriter := [] }
        = (Completion.normal,
            { elements := [{ id := "logo-text", innerHTML := [],
                             values := some (codeUnits "a,bb,ccc") }],
              typewriter :=
                [TypeItCall.construct "#logo-text" 75 false true,
                  TypeItCall.type (JSValue.string (codeUnits "bb")) 3000,
                  TypeItCall.delete 2 200,
                  TypeItCall.type (JSValue.string (codeUnits "ccc")) 3000,
                  TypeItCall.delete 3 200,
                  TypeItCall.type (JSValue.string (codeUnits "a")) 3000,
                  TypeItCall.delete 1 200,
                  TypeItCall.go] })
      ∧ ∃ snippets : List JSString, snippets.Perm (split (codeUnits "a,bb,ccc")) :=
  ⟨by decide, by decide,
    (loadHandler_schedules_type_then_delete
      (always zero)
      { elements := [{ id := "logo-text", innerHTML := codeUnits "hello world",
                       values := some (codeUnits "a,bb,ccc") }],
        typewriter := [] }
      { id := "logo-text", innerHTML := codeUnits "hello world",
        values := some (codeUnits "a,bb,ccc") }
      (codeUnits "a,bb,ccc") (by decide) rfl).2.1.imp (fun _ h => h.2.1)⟩

/-- C6: when no element with id `logo-text` exists, the handler throws and leaves the
page as it was: TypeIt receives no call, neither the constructor nor `type`, `delete`
or `go`. -/
theorem loadHandler_throws_without_element (rand : RandomSource) (page : Page)
    (hnone : ∀ e ∈ page.elements, e.id ≠ "logo-text") :
    loadHandler rand page = (Completion.typeError, page)
      ∧ (loadHandler rand page).1 = Completion.typeError
      ∧ (loadHandler rand page).2.typewriter = page.typewriter := by
  have h : loadHandler rand page = (Completion.typeError, page) := by
    simp only [loadHandler, getElementById_eq_none page.elements "logo-text" hnone]
  exact ⟨h, by rw [h], by rw [h]⟩

/-- Witness for C6: a page with one element, of another id, and no calls so far. -/
theorem loadHandler_throws_without_element_witness :
    (∀ e ∈ [({ id := "title", innerHTML := [], values := some [] } : Element)],
        e.id ≠ "logo-text")
      ∧ (loadHandler
          (always zero)
          { elements := [{ id := "title", innerHTML := [], values := some [] }],
            typewriter := [] }).2.typewriter = [] :=
  ⟨by decide,
    (loadHandler_throws_without_element
      (always zero)
      { elements := [{ id := "title", innerHTML := [], values := some [] }],
        typewriter := [] }
      (by decide)).2.2⟩

/-- C9: for every string held in the data attribute, the empty string included,
splitting it on the comma gives at least one snippet, the shuffled list has at least
one element, and the handler issues a `type` and `delete` pair right after
constructing the typewriter. -/
theorem snippets_never_empty (rand : RandomSource) (page : Page) (logoEl : Element)
    (values : JSString)
    (hel : getElementById page.elements "logo-text" = some logoEl)
    (hvalues : logoEl.values = some values) :
    1 ≤ (split values).length
      ∧ 1 ≤ (shuffle JSValue.undefined (mathRandom rand)
          ((split values).map JSValue.string)).returned.length
      ∧ ∃ (s : JSString) (rest : List TypeItCall),
          (loadHandler rand page).1 = Completion.normal
            ∧ (loadHandler rand page).2.typewriter
              = page.typewriter
                  ++ TypeItCall.construct "#logo-text" 75 false true
                    :: TypeItCall.type (JSValue.string s) 3000
                    :: TypeItCall.delete s.length 200 :: rest := by
  have h1 : 1 ≤ (split values).length :=
    List.length_pos.2 (split_ne_nil values)
  have hp := shuffle_mathRandom_perm JSValue.undefined rand
    ((split values).map JSValue.string)
  obtain ⟨snippets, hs, hps⟩ := exists_strings_of_perm _ (split values) hp
  refine ⟨h1, ?_, ?_⟩
  · rw [hp.length_eq, List.length_map]
    exact h1
  · cases snippets with
    | nil =>
      have := hps.length_eq
      simp at this
      omega
    | cons s rest =>
      refine ⟨s, rest.flatMap (fun s =>
        [TypeItCall.type (JSValue.string s) 3000, TypeItCall.delete s.length 200])
          ++ [TypeItCall.go], ?_⟩
      rw [loadHandler_eq rand page logoEl values (s :: rest) hel hvalues hs]
      simp

/-- Witness for C9: the attribute holds the empty string; the one snippet is the empty
string, typed and deleted with count 0. -/
theorem snippets_never_empty_witness :
    split [] = [[]]
      ∧ (loadHandler
          (always zero)
          { elements := [{ id := "logo-text", innerHTML := [], values := some [] }],
            typewriter := [] }).2.typewriter
        = [TypeItCall.construct "#logo-text" 75 false true,
            TypeItCall.type (JSValue.string []) 3000, TypeItCall.delete 0 200,
            TypeItCall.go]
      ∧ 1 ≤ (split []).length :=
  ⟨by decide, by decide,
    (snippets_never_empty
      (always zero)
      { elements := [{ id := "logo-text", innerHTML := [], values := some [] }],
        typewriter := [] }
      { id := "logo-text", innerHTML := [], values := some [] } [] (by decide) rfl).1⟩

/-! ### Claims on the OG image generator -/

/-- C4, as the code has it: when the screenshot throws, every earlier step having
succeeded, the handler of the `try` calls `process.exit(1)`, which ends the process
before the `finally` block runs: the exit status is 1, `browser.close()` is never
called, and the last call made is `process.exit(1)`. This holds for every working
directory, whether or not the output directory exists, and whatever the later steps
would have done. -/
theorem screenshot_failure_exits_without_close (cwd : Path)
    (dirExists statFails closeFails : Bool) :
    (run { cwd := cwd, dirExists := dirExists, launchFails := false,
           newPageFails := false, setViewportFails := false, setContentFails := false,
           mkdirFails := false, screenshotFails := true, statFails := statFails,
           closeFails := closeFails }).exitCode = 1
      ∧ (run { cwd := cwd, dirExists := dirExists, launchFails := false,
               newPageFails := false, setViewportFails := false, setContentFails := false,
               mkdirFails := false, screenshotFails := true, statFails := statFails,
               closeFails := closeFails }).calls.count Call.close = 0
      ∧ (run { cwd := cwd, dirExists := dirExists, launchFails := false,
               newPageFails := false, setViewportFails := false, setContentFails := false,
               mkdirFails := false, screenshotFails := true, statFails := statFails,
               closeFails := closeFails }).calls.getLast? = some (Call.exit 1)
      ∧ (run { allSucceed ["srv", "site", "scripts", "og-image-generator"] true with
               screenshotFails := true }).calls
        = [Call.launch, Call.newPage, Call.setViewport 1200 630 2, Call.setContent,
            Call.existsSync ["srv", "site", "static"],
            Call.screenshot ["srv", "site", "static", "og-image.png"],
            Call.consoleError, Call.exit 1] := by
  refine ⟨?_, ?_, ?_, by decide⟩
  · cases dirExists <;> cases statFails <;> cases closeFails <;> rfl
  · cases dirExists <;> cases statFails <;> cases closeFails <;> rfl
  · cases dirExists <;> cases statFails <;> cases closeFails <;> rfl

/-- C5: the exit status of the script is 1 exactly when some step of the pipeline fails
(the browser launch, opening the page, setting the viewport, loading the content,
creating the directory when it is absent, the screenshot, reading the file size, or
closing the browser), and 0 when every step succeeds. -/
theorem exitCode_one_iff_some_step_fails (env : Env) :
    ((run env).exitCode = 1 ↔
        (env.launchFails = true ∨ env.newPageFails = true ∨ env.setViewportFails = true
          ∨ env.setContentFails = true ∨ (env.dirExists = false ∧ env.mkdirFails = true)
          ∨ env.screenshotFails = true ∨ env.statFails = true ∨ env.closeFails = true))
      ∧ ((run env).exitCode = 0 ↔
        ¬ (env.launchFails = true ∨ env.newPageFails = true ∨ env.setViewportFails = true
          ∨ env.setContentFails = true ∨ (env.dirExists = false ∧ env.mkdirFails = true)
          ∨ env.screenshotFails = true ∨ env.statFails = true ∨ env.closeFails = true)) := by
  rw [exitCode_eq]
  split_ifs with h
  · simp only [Bool.or_eq_true, Bool.and_eq_true, Bool.not_eq_true'] at h
    simp only [true_iff, one_ne_zero, false_iff, not_not]
    have h' : env.launchFails = true ∨ env.newPageFails = true
        ∨ env.setViewportFails = true ∨ env.setContentFails = true
        ∨ (env.dirExists = false ∧ env.mkdirFails = true) ∨ env.screenshotFails = true
        ∨ env.statFails = true ∨ env.closeFails = true := by tauto
    exact ⟨h', h'⟩
  · simp only [Bool.or_eq_true, Bool.and_eq_true, Bool.not_eq_true'] at h
    simp only [zero_ne_one, false_iff, true_iff]
    have h' : ¬ (env.launchFails = true ∨ env.newPageFails = true
        ∨ env.setViewportFails = true ∨ env.setContentFails = true
        ∨ (env.dirExists = false ∧ env.mkdirFails = true) ∨ env.screenshotFails = true
        ∨ env.statFails = true ∨ env.closeFails = true) := by tauto
    exact ⟨h', h'⟩

/-- C8, as the code has it: started from the project root `/srv/site`, the script in
`/srv/site/scripts/og-image-generator` writes the screenshot to `/static/og-image.png`,
not to `/srv/site/static/og-image.png`, the path two levels above its own directory. -/
theorem screenshot_path_depends_on_cwd :
    screenshotPaths (run (allSucceed ["srv", "site"] true)).calls
        = [["static", "og-image.png"]]
      ∧ specOutputPath ["srv", "site", "scripts", "og-image-generator"]
          = ["srv", "site", "static", "og-image.png"]
      ∧ screenshotPaths (run (allSucceed ["srv", "site"] true)).calls
        ≠ [specOutputPath ["srv", "site", "scripts", "og-image-generator"]] := by
  decide

/-- C8 amended: the path the screenshot is written to is `static/og-image.png` under
the directory two levels above the working directory the process is started from; it
is the path two levels above the directory of the script when the process is started
from that directory. -/
theorem screenshot_path_two_levels_above_cwd (env : Env) (hcwd : Normalised env.cwd) :
    (∀ path ∈ screenshotPaths (run env).calls,
        path = env.cwd.dropLast.dropLast ++ ["static", "og-image.png"])
      ∧ (∀ scriptDir : Path, env.cwd = scriptDir →
          ∀ path ∈ screenshotPaths (run env).calls, path = specOutputPath scriptDir) := by
  have h1 : ∀ path ∈ screenshotPaths (run env).calls,
      path = env.cwd.dropLast.dropLast ++ ["static", "og-image.png"] := by
    intro path hpath
    rcases screenshotPaths_run env with h | h
    · rw [h] at hpath; simp at hpath
    · rw [h, List.mem_singleton] at hpath
      rw [hpath, join_outputPath env.cwd hcwd]
  refine ⟨h1, ?_⟩
  rintro scriptDir rfl path hpath
  rw [specOutputPath_eq env.cwd hcwd]
  exact h1 path hpath

/-- Witness for C8 amended: started from `/srv/site/scripts/og-image-generator` with every
step succeeding, the one screenshot goes to `/srv/site/static/og-image.png`. -/
theorem screenshot_path_two_levels_above_cwd_witness :
    Normalised ["srv", "site", "scripts", "og-image-generator"]
      ∧ screenshotPaths
          (run (allSucceed ["srv", "site", "scripts", "og-image-generator"] false)).calls
        = [["srv", "site", "static", "og-image.png"]]
      ∧ ∀ path ∈ screenshotPaths
          (run (allSucceed ["srv", "site", "scripts", "og-image-generator"] false)).calls,
          path = ["srv", "site", "static", "og-image.png"] :=
  ⟨by unfold Normalised; decide, by decide,
    (screenshot_path_two_levels_above_cwd
      (allSucceed ["srv", "site", "scripts", "og-image-generator"] false)
      (by unfold Normalised; decide)).1⟩

end FlexiconSite
